import Mathlib

/-!
Verification of the ANDE-chain genesis record-encoding and Merkle-commitment
subsystem (scripts/generate-genesis-plants.py and
scripts/generate-genesis-seeds.py), shallowly embedded in Lean 4.

Byte strings are modelled as `List Nat`; a well-formed byte is a value below
256.  The external hash primitive (keccak-256 from `eth_utils`) is modelled
as an explicit function parameter `f : Bytes → Bytes`; the predicate
`Hash32 f` states the property every real 32-byte hash enjoys: each output is
a list of exactly 32 well-formed bytes.  `keccak(text=s)` in the source hashes
the UTF-8 encoding of `s`, modelled by an explicit UTF-8 encoder `strBytes`.
Hex rendering (`to_hex`, Python `hex(...)` keys) is an injective presentation
layer and is dropped: proof elements stay raw byte lists and storage keys stay
natural numbers.
-/

namespace AndeChain

set_option maxRecDepth 16384

/-- Byte strings: lists of naturals; a well-formed byte is below 256. -/
abbrev Bytes := List Nat

/-- The fixed all-zero 32-byte sentinel `b"\x00" * 32`. -/
def zero32 : Bytes := List.replicate 32 0

/-!  ## Merkle tree (scripts/generate-genesis-plants.py, lines 363-420)  -/

/-- One pass of the `for i in range(0, len(current_level), 2)` loop of
`calculate_merkle_root`: a full pair `(2k, 2k+1)` becomes
`keccak(left + right)`, a lone odd tail is promoted unchanged. -/
def merkleLevel (f : Bytes → Bytes) : List Bytes → List Bytes
  | [] => []
  | [x] => [x]
  | x :: y :: rest => f (x ++ y) :: merkleLevel f rest

theorem merkleLevel_length (f : Bytes → Bytes) :
    ∀ l : List Bytes, (merkleLevel f l).length = (l.length + 1) / 2
  | [] => by simp [merkleLevel]
  | [_] => by simp [merkleLevel]
  | _ :: _ :: rest => by
    have ih := merkleLevel_length f rest
    simp only [merkleLevel, List.length_cons]
    omega

/-- `calculate_merkle_root` (lines 363-385): `b"\x00"*32` for no leaves, the
leaf itself for one leaf, otherwise the level loop is repeated until a single
node remains. -/
def calculate_merkle_root (f : Bytes → Bytes) : List Bytes → Bytes
  | [] => zero32
  | [x] => x
  | x :: y :: rest => calculate_merkle_root f (merkleLevel f (x :: y :: rest))
termination_by l => l.length
decreasing_by
  have := merkleLevel_length f (x :: y :: rest)
  simp only [List.length_cons] at this ⊢
  omega

/-- The sibling digests appended to `proof` during one pass of the pair loop
of `generate_merkle_proof`, for current index `idx` (the source appends
`right` when `current_index == i` and `left` when `current_index == i + 1`;
an unpaired tail contributes nothing). -/
def levelSibling (idx : Nat) : List Bytes → List Bytes
  | [] => []
  | [_] => []
  | x :: y :: rest =>
    if idx = 0 then [y]
    else if idx = 1 then [x]
    else levelSibling (idx - 2) rest

/-- The `while len(current_level) > 1` loop of `generate_merkle_proof`:
collect this level's sibling, halve the index, move to the next level. -/
def proofLoop (f : Bytes → Bytes) (idx : Nat) : List Bytes → List Bytes
  | [] => []
  | [_] => []
  | x :: y :: rest =>
    levelSibling idx (x :: y :: rest) ++
      proofLoop f (idx / 2) (merkleLevel f (x :: y :: rest))
termination_by l => l.length
decreasing_by
  have := merkleLevel_length f (x :: y :: rest)
  simp only [List.length_cons] at this ⊢
  omega

/-- `generate_merkle_proof` (lines 387-420): an out-of-range index yields the
empty proof; otherwise the level loop collects one sibling per paired level. -/
def generate_merkle_proof (f : Bytes → Bytes) (leaves : List Bytes)
    (index : Nat) : List Bytes :=
  if index ≥ leaves.length then [] else proofLoop f index leaves

/-- Modelled from the spec: the repository has no standalone `verify`; spec
section 4.4 describes it as replaying the pairing logic implied by `index`
and `total_leaf_count` level by level, combining the running hash with the
next proof element on the left or right according to the index parity,
skipping levels where the node is the unpaired odd tail, and comparing the
final value with `root` (leftover or missing proof elements fail, per spec
section 7(e)).  `verifySeq` returns the recomputed root, `none` on a
malformed proof length. -/
def verifySeq (f : Bytes → Bytes) (acc : Bytes) (idx m : Nat)
    (proof : List Bytes) : Option Bytes :=
  if m ≤ 1 then
    if proof.isEmpty then some acc else none
  else if idx % 2 = 0 then
    if idx + 1 < m then
      match proof with
      | [] => none
      | p :: rest => verifySeq f (f (acc ++ p)) (idx / 2) ((m + 1) / 2) rest
    else
      verifySeq f acc (idx / 2) ((m + 1) / 2) proof
  else
    match proof with
    | [] => none
    | p :: rest => verifySeq f (f (p ++ acc)) (idx / 2) ((m + 1) / 2) rest
termination_by m
decreasing_by all_goals omega

/-- Modelled from the spec (section 4.4): `verify(leaf, index, proof, root,
total_leaf_count)` recomputes the root from the leaf and compares. -/
def verify (f : Bytes → Bytes) (leaf : Bytes) (index : Nat)
    (proof : List Bytes) (root : Bytes) (total : Nat) : Bool :=
  decide (verifySeq f leaf index total proof = some root)

/-!  ## Merkle level characterisation  -/

theorem merkleLevel_getElem (f : Bytes → Bytes) :
    ∀ (l : List Bytes) (i : Nat),
      (merkleLevel f l)[i]? =
        match l[2 * i]?, l[2 * i + 1]? with
        | some a, some b => some (f (a ++ b))
        | some a, none => some a
        | none, _ => none
  | [], i => by simp [merkleLevel]
  | [x], 0 => by simp [merkleLevel]
  | [x], i + 1 => by
    have h1 : ([x] : List Bytes)[2 * (i + 1)]? = none := by
      rw [List.getElem?_eq_none] ; simp ; omega
    simp [merkleLevel, h1]
  | x :: y :: rest, 0 => by simp [merkleLevel]
  | x :: y :: rest, i + 1 => by
    have ih := merkleLevel_getElem f rest i
    have e1 : (x :: y :: rest)[2 * (i + 1)]? = rest[2 * i]? := by
      have e : 2 * (i + 1) = 2 * i + 1 + 1 := by omega
      rw [e, List.getElem?_cons_succ, List.getElem?_cons_succ]
    have e2 : (x :: y :: rest)[2 * (i + 1) + 1]? = rest[2 * i + 1]? := by
      have e : 2 * (i + 1) + 1 = 2 * i + 1 + 1 + 1 := by omega
      rw [e, List.getElem?_cons_succ, List.getElem?_cons_succ]
    simpa only [merkleLevel, List.getElem?_cons_succ, e1, e2] using ih

theorem levelSibling_even :
    ∀ (l : List Bytes) (j : Nat) (b : Bytes), l[2 * j + 1]? = some b →
      levelSibling (2 * j) l = [b]
  | [], j, b => by simp
  | [x], j, b => by simp
  | x :: y :: rest, 0, b => by
    intro h
    simp at h
    simp [levelSibling, h]
  | x :: y :: rest, j + 1, b => by
    intro h
    have h2 : rest[2 * j + 1]? = some b := by
      have e : 2 * (j + 1) + 1 = 2 * j + 1 + 1 + 1 := by omega
      rwa [e, List.getElem?_cons_succ, List.getElem?_cons_succ] at h
    have ne0 : ¬(2 * (j + 1) = 0) := by omega
    have ne1 : ¬(2 * (j + 1) = 1) := by omega
    have e2 : 2 * (j + 1) - 2 = 2 * j := by omega
    simp only [levelSibling, if_neg ne0, if_neg ne1, e2]
    exact levelSibling_even rest j b h2

theorem levelSibling_odd :
    ∀ (l : List Bytes) (j : Nat) (b : Bytes), 2 * j + 1 < l.length →
      l[2 * j]? = some b → levelSibling (2 * j + 1) l = [b]
  | [], j, b => by simp
  | [x], j, b => by
    intro h
    exfalso
    simp only [List.length_cons, List.length_nil] at h
    omega
  | x :: y :: rest, 0, b => by
    intro _ h
    simp at h
    simp [levelSibling, h]
  | x :: y :: rest, j + 1, b => by
    intro hlt h
    have hlt2 : 2 * j + 1 < rest.length := by
      simp only [List.length_cons] at hlt ; omega
    have h2 : rest[2 * j]? = some b := by
      have e : 2 * (j + 1) = 2 * j + 1 + 1 := by omega
      rwa [e, List.getElem?_cons_succ, List.getElem?_cons_succ] at h
    have ne0 : ¬(2 * (j + 1) + 1 = 0) := by omega
    have ne1 : ¬(2 * (j + 1) + 1 = 1) := by omega
    have e2 : 2 * (j + 1) + 1 - 2 = 2 * j + 1 := by omega
    simp only [levelSibling, if_neg ne0, if_neg ne1, e2]
    exact levelSibling_odd rest j b hlt2 h2

theorem levelSibling_tail :
    ∀ (l : List Bytes) (j : Nat), l.length = 2 * j + 1 →
      levelSibling (2 * j) l = []
  | [], j => by simp
  | [x], j => by intro _; simp [levelSibling]
  | x :: y :: rest, j => by
    intro h
    simp only [List.length_cons] at h
    have hj : 1 ≤ j := by omega
    have ne0 : ¬(2 * j = 0) := by omega
    have ne1 : ¬(2 * j = 1) := by omega
    have e2 : 2 * j - 2 = 2 * (j - 1) := by omega
    have hrest : rest.length = 2 * (j - 1) + 1 := by omega
    simp only [levelSibling, if_neg ne0, if_neg ne1, e2]
    exact levelSibling_tail rest (j - 1) hrest

/-- Invariant behind proof correctness: starting from any node of the current
level, replaying `verifySeq` against the siblings collected by `proofLoop`
recomputes the root of that level. -/
theorem verifySeq_proofLoop (f : Bytes → Bytes) :
    ∀ (l : List Bytes) (idx : Nat) (a : Bytes), l[idx]? = some a →
      verifySeq f a idx l.length (proofLoop f idx l) =
        some (calculate_merkle_root f l)
  | [], idx, a => by simp
  | [x], idx, a => by
    intro h
    match idx with
    | 0 =>
      simp only [List.getElem?_cons_zero, Option.some.injEq] at h
      subst h
      simp [proofLoop, verifySeq, calculate_merkle_root]
    | i + 1 => simp at h
  | x :: y :: rest, idx, a => by
    intro h
    have hm : (x :: y :: rest).length = rest.length + 2 := by simp
    have hidx : idx < rest.length + 2 := by
      by_contra hc
      rw [List.getElem?_eq_none (by simp ; omega)] at h
      exact Option.noConfusion h
    have hlen2 : (merkleLevel f (x :: y :: rest)).length =
        (rest.length + 2 + 1) / 2 := by
      rw [merkleLevel_length, hm]
    have hroot : calculate_merkle_root f (x :: y :: rest) =
        calculate_merkle_root f (merkleLevel f (x :: y :: rest)) := by
      rw [calculate_merkle_root]
    rcases Nat.mod_two_eq_zero_or_one idx with hpar | hpar
    · -- idx is the left member of its pair, or the unpaired tail
      have hj : 2 * (idx / 2) = idx := by omega
      by_cases hpair : idx + 1 < rest.length + 2
      · -- a right sibling exists
        obtain ⟨b, hb⟩ : ∃ b, (x :: y :: rest)[idx + 1]? = some b :=
          ⟨_, List.getElem?_eq_getElem (by simp ; omega)⟩
        have hsib : levelSibling idx (x :: y :: rest) = [b] := by
          rw [← hj] at hb ⊢
          exact levelSibling_even _ _ _ hb
        have hnext : (merkleLevel f (x :: y :: rest))[idx / 2]? =
            some (f (a ++ b)) := by
          rw [merkleLevel_getElem, hj, h, hb]
        have ih := verifySeq_proofLoop f (merkleLevel f (x :: y :: rest))
          (idx / 2) (f (a ++ b)) hnext
        rw [proofLoop, hsib, hm, List.singleton_append]
        rw [verifySeq.eq_def]
        rw [if_neg (by omega), if_pos hpar, if_pos hpair]
        rw [hroot, ← hlen2]
        exact ih
      · -- idx is the unpaired odd tail: promoted, no sibling recorded
        have htail : (x :: y :: rest).length = 2 * (idx / 2) + 1 := by
          rw [hm] ; omega
        have hsib : levelSibling idx (x :: y :: rest) = ([] : List Bytes) := by
          rw [← hj]
          exact levelSibling_tail _ _ htail
        have hnone : (x :: y :: rest)[idx + 1]? = none := by
          rw [List.getElem?_eq_none (by simp ; omega)]
        have hnext : (merkleLevel f (x :: y :: rest))[idx / 2]? = some a := by
          rw [merkleLevel_getElem, hj, h, hnone]
        have ih := verifySeq_proofLoop f (merkleLevel f (x :: y :: rest))
          (idx / 2) a hnext
        rw [proofLoop, hsib, hm, List.nil_append]
        rw [verifySeq.eq_def]
        rw [if_neg (by omega), if_pos hpar, if_neg hpair]
        rw [hroot, ← hlen2]
        exact ih
    · -- idx is the right member of its pair
      have hj : 2 * (idx / 2) + 1 = idx := by omega
      obtain ⟨b, hb⟩ : ∃ b, (x :: y :: rest)[2 * (idx / 2)]? = some b :=
        ⟨_, List.getElem?_eq_getElem (by simp ; omega)⟩
      have hsib : levelSibling idx (x :: y :: rest) = [b] := by
        rw [← hj]
        exact levelSibling_odd _ _ _ (by simp ; omega) hb
      have hnext : (merkleLevel f (x :: y :: rest))[idx / 2]? =
          some (f (b ++ a)) := by
        rw [merkleLevel_getElem, hb, hj, h]
      have ih := verifySeq_proofLoop f (merkleLevel f (x :: y :: rest))
        (idx / 2) (f (b ++ a)) hnext
      rw [proofLoop, hsib, hm, List.singleton_append]
      rw [verifySeq.eq_def]
      rw [if_neg (by omega), if_neg (by omega)]
      rw [hroot, ← hlen2]
      exact ih
termination_by l => l.length
decreasing_by
  all_goals
    have := merkleLevel_length f (x :: y :: rest)
    simp only [List.length_cons] at this ⊢
    omega

/-!  ## UTF-8 and byte-string helpers  -/

/-- UTF-8 encoding of one character, as Python `str.encode("utf-8")`
produces for each code point. -/
def utf8Bytes (c : Char) : Bytes :=
  let n := c.toNat
  if n < 0x80 then [n]
  else if n < 0x800 then
    [0xC0 ||| (n >>> 6), 0x80 ||| (n &&& 0x3F)]
  else if n < 0x10000 then
    [0xE0 ||| (n >>> 12), 0x80 ||| ((n >>> 6) &&& 0x3F), 0x80 ||| (n &&& 0x3F)]
  else
    [0xF0 ||| (n >>> 18), 0x80 ||| ((n >>> 12) &&& 0x3F),
      0x80 ||| ((n >>> 6) &&& 0x3F), 0x80 ||| (n &&& 0x3F)]

/-- UTF-8 encoding of a string (Python `s.encode("utf-8")`). -/
def strBytes (s : String) : Bytes := (s.data.map utf8Bytes).flatten

/-- Python `bytes.ljust(w, fill)`: right-pad to width `w`. -/
def ljust (b : Bytes) (w : Nat) (fill : Nat) : Bytes :=
  b ++ List.replicate (w - b.length) fill

/-- Fixed-width big-endian byte rendering of a natural number. -/
def beBytes : Nat → Nat → Bytes
  | 0, _ => []
  | w + 1, v => beBytes w (v / 256) ++ [v % 256]

/-- Python `int.to_bytes(w, "big")`: raises `OverflowError` (here `none`)
when the value does not fit in `w` bytes. -/
def toBytesBE (v w : Nat) : Option Bytes :=
  if v < 256 ^ w then some (beBytes w v) else none

theorem char_toNat_lt (c : Char) : c.toNat < 0x110000 := by
  rcases c.valid with h | ⟨_, h⟩ <;> exact lt_of_lt_of_le h (by norm_num)

theorem utf8Bytes_lt (c : Char) : ∀ b ∈ utf8Bytes c, b < 256 := by
  have hc := char_toNat_lt c
  unfold utf8Bytes
  by_cases h1 : c.toNat < 0x80
  · simp only [if_pos h1]
    intro b hb
    simp only [List.mem_singleton] at hb
    omega
  · by_cases h2 : c.toNat < 0x800
    · simp only [if_neg h1, if_pos h2]
      intro b hb
      have e1 : c.toNat >>> 6 < 256 := by
        rw [Nat.shiftRight_eq_div_pow] ; omega
      have e2 : c.toNat &&& 0x3F < 256 :=
        lt_of_le_of_lt (Nat.and_le_right) (by norm_num)
      simp only [List.mem_cons, List.mem_singleton, List.not_mem_nil, or_false] at hb
      rcases hb with rfl | rfl
      · exact Nat.or_lt_two_pow (n := 8) (by norm_num) e1
      · exact Nat.or_lt_two_pow (n := 8) (by norm_num) e2
    · by_cases h3 : c.toNat < 0x10000
      · simp only [if_neg h1, if_neg h2, if_pos h3]
        intro b hb
        have e1 : c.toNat >>> 12 < 256 := by
          rw [Nat.shiftRight_eq_div_pow] ; omega
        have e2 : c.toNat >>> 6 &&& 0x3F < 256 :=
          lt_of_le_of_lt (Nat.and_le_right) (by norm_num)
        have e3 : c.toNat &&& 0x3F < 256 :=
          lt_of_le_of_lt (Nat.and_le_right) (by norm_num)
        simp only [List.mem_cons, List.mem_singleton, List.not_mem_nil, or_false] at hb
        rcases hb with rfl | rfl | rfl
        · exact Nat.or_lt_two_pow (n := 8) (by norm_num) e1
        · exact Nat.or_lt_two_pow (n := 8) (by norm_num) e2
        · exact Nat.or_lt_two_pow (n := 8) (by norm_num) e3
      · simp only [if_neg h1, if_neg h2, if_neg h3]
        intro b hb
        have e1 : c.toNat >>> 18 < 256 := by
          rw [Nat.shiftRight_eq_div_pow] ; omega
        have e2 : c.toNat >>> 12 &&& 0x3F < 256 :=
          lt_of_le_of_lt (Nat.and_le_right) (by norm_num)
        have e3 : c.toNat >>> 6 &&& 0x3F < 256 :=
          lt_of_le_of_lt (Nat.and_le_right) (by norm_num)
        have e4 : c.toNat &&& 0x3F < 256 :=
          lt_of_le_of_lt (Nat.and_le_right) (by norm_num)
        simp only [List.mem_cons, List.mem_singleton, List.not_mem_nil, or_false] at hb
        rcases hb with rfl | rfl | rfl | rfl
        · exact Nat.or_lt_two_pow (n := 8) (by norm_num) e1
        · exact Nat.or_lt_two_pow (n := 8) (by norm_num) e2
        · exact Nat.or_lt_two_pow (n := 8) (by norm_num) e3
        · exact Nat.or_lt_two_pow (n := 8) (by norm_num) e4

theorem strBytes_lt (s : String) : ∀ b ∈ strBytes s, b < 256 := by
  intro b hb
  unfold strBytes at hb
  rw [List.mem_flatten] at hb
  obtain ⟨l, hl, hbl⟩ := hb
  rw [List.mem_map] at hl
  obtain ⟨c, _, rfl⟩ := hl
  exact utf8Bytes_lt c b hbl

theorem strBytes_append (s t : String) :
    strBytes (s ++ t) = strBytes s ++ strBytes t := by
  unfold strBytes
  rw [String.data_append, List.map_append, List.flatten_append]

theorem beBytes_length : ∀ w v, (beBytes w v).length = w
  | 0, _ => rfl
  | w + 1, v => by
    simp only [beBytes, List.length_append, List.length_cons, List.length_nil,
      beBytes_length w]

theorem beBytes_lt : ∀ w v, ∀ b ∈ beBytes w v, b < 256
  | 0, _ => by simp [beBytes]
  | w + 1, v => by
    intro b hb
    simp only [beBytes, List.mem_append, List.mem_singleton] at hb
    rcases hb with hb | rfl
    · exact beBytes_lt w (v / 256) b hb
    · exact Nat.mod_lt _ (by norm_num)

theorem ljust_length (b : Bytes) (w fill : Nat) (h : b.length ≤ w) :
    (ljust b w fill).length = w := by
  simp only [ljust, List.length_append, List.length_replicate]
  omega

theorem ljust_lt (b : Bytes) (w fill : Nat) (hb : ∀ x ∈ b, x < 256)
    (hf : fill < 256) : ∀ x ∈ ljust b w fill, x < 256 := by
  intro x hx
  simp only [ljust, List.mem_append] at hx
  rcases hx with hx | hx
  · exact hb x hx
  · rw [List.eq_of_mem_replicate hx] ; exact hf

/-!  ## CRC-32 (`zlib.crc32`)

The reflected CRC-32 with polynomial `0xEDB88320`, initial register
`0xFFFFFFFF` and final XOR `0xFFFFFFFF`, computed bitwise exactly as the
zlib checksum of a byte string. -/

/-- One bit step of the reflected CRC-32. -/
def crcStep (c : Nat) : Nat :=
  (c >>> 1) ^^^ (if c % 2 = 1 then 0xEDB88320 else 0)

/-- Iterate `crcStep`. -/
def crcSteps : Nat → Nat → Nat
  | 0, c => c
  | n + 1, c => crcSteps n (crcStep c)

/-- Absorb one byte into the CRC register. -/
def crcByte (c b : Nat) : Nat := crcSteps 8 (c ^^^ b)

/-- `zlib.crc32(data)` for a byte string. -/
def crc32 (data : Bytes) : Nat :=
  (data.foldl crcByte 0xFFFFFFFF) ^^^ 0xFFFFFFFF

/-- The property the abstract hash primitive is assumed to have, enjoyed by
the real keccak-256: every output is a list of exactly 32 well-formed
bytes. -/
def Hash32 (f : Bytes → Bytes) : Prop :=
  ∀ x, (f x).length = 32 ∧ ∀ b ∈ f x, b < 256

theorem xor_left_cancel {a b c : Nat} (h : a ^^^ b = a ^^^ c) : b = c := by
  have h2 := congrArg (fun x => a ^^^ x) h
  simpa only [← Nat.xor_assoc, Nat.xor_self, Nat.zero_xor] using h2

theorem xor_right_cancel {a b c : Nat} (h : b ^^^ a = c ^^^ a) : b = c := by
  have h2 := congrArg (fun x => x ^^^ a) h
  simpa only [Nat.xor_assoc, Nat.xor_self, Nat.xor_zero] using h2

theorem crcStep_lt {c : Nat} (h : c < 2 ^ 32) : crcStep c < 2 ^ 32 := by
  unfold crcStep
  apply Nat.xor_lt_two_pow
  · rw [Nat.shiftRight_one]
    omega
  · split <;> norm_num

theorem crcStep_parity {c : Nat} (h : c < 2 ^ 32) :
    (crcStep c).testBit 31 = decide (c % 2 = 1) := by
  unfold crcStep
  rw [Nat.testBit_xor]
  have h1 : (c >>> 1).testBit 31 = false := by
    rw [Nat.testBit_shiftRight]
    exact Nat.testBit_lt_two_pow (lt_of_lt_of_le h (by norm_num))
  rw [h1]
  by_cases hc : c % 2 = 1
  · simp only [if_pos hc, hc]
    decide
  · simp only [if_neg hc, hc]
    simp [Nat.zero_testBit]

theorem crcStep_inj {c1 c2 : Nat} (h1 : c1 < 2 ^ 32) (h2 : c2 < 2 ^ 32)
    (h : crcStep c1 = crcStep c2) : c1 = c2 := by
  have hp : decide (c1 % 2 = 1) = decide (c2 % 2 = 1) := by
    rw [← crcStep_parity h1, ← crcStep_parity h2, h]
  have hpar : c1 % 2 = c2 % 2 := by
    rcases Nat.mod_two_eq_zero_or_one c1 with e1 | e1 <;>
      rcases Nat.mod_two_eq_zero_or_one c2 with e2 | e2 <;>
        simp [e1, e2] at hp ⊢
  unfold crcStep at h
  rw [hpar] at h
  have hs : c1 >>> 1 = c2 >>> 1 := xor_right_cancel h
  rw [Nat.shiftRight_one, Nat.shiftRight_one] at hs
  omega

theorem crcSteps_lt : ∀ (n : Nat) {c : Nat}, c < 2 ^ 32 →
    crcSteps n c < 2 ^ 32
  | 0, _, h => h
  | n + 1, _, h => crcSteps_lt n (crcStep_lt h)

theorem crcSteps_inj : ∀ (n : Nat) {c1 c2 : Nat}, c1 < 2 ^ 32 →
    c2 < 2 ^ 32 → crcSteps n c1 = crcSteps n c2 → c1 = c2
  | 0, _, _, _, _, h => h
  | n + 1, _, _, h1, h2, h =>
    crcStep_inj h1 h2 (crcSteps_inj n (crcStep_lt h1) (crcStep_lt h2) h)

theorem crcByte_lt {c b : Nat} (hc : c < 2 ^ 32) (hb : b < 256) :
    crcByte c b < 2 ^ 32 :=
  crcSteps_lt 8 (Nat.xor_lt_two_pow hc (lt_of_lt_of_le hb (by norm_num)))

theorem crcByte_inj {c1 c2 b : Nat} (h1 : c1 < 2 ^ 32) (h2 : c2 < 2 ^ 32)
    (hb : b < 256) (h : crcByte c1 b = crcByte c2 b) : c1 = c2 := by
  have hb32 : b < 2 ^ 32 := lt_of_lt_of_le hb (by norm_num)
  have := crcSteps_inj 8 (Nat.xor_lt_two_pow h1 hb32)
    (Nat.xor_lt_two_pow h2 hb32) h
  exact xor_right_cancel this

theorem foldl_crcByte_lt : ∀ (l : Bytes) {c : Nat}, c < 2 ^ 32 →
    (∀ b ∈ l, b < 256) → l.foldl crcByte c < 2 ^ 32
  | [], _, hc, _ => hc
  | b :: l, c, hc, hl =>
    foldl_crcByte_lt l (crcByte_lt hc (hl b (by simp)))
      (fun x hx => hl x (by simp [hx]))

theorem foldl_crcByte_ne : ∀ (l : Bytes) {c1 c2 : Nat}, c1 < 2 ^ 32 →
    c2 < 2 ^ 32 → (∀ b ∈ l, b < 256) → c1 ≠ c2 →
    l.foldl crcByte c1 ≠ l.foldl crcByte c2
  | [], _, _, _, _, _, hne => hne
  | b :: l, c1, c2, h1, h2, hl, hne => by
    have hb : b < 256 := hl b (by simp)
    simp only [List.foldl_cons]
    exact foldl_crcByte_ne l (crcByte_lt h1 hb) (crcByte_lt h2 hb)
      (fun x hx => hl x (by simp [hx]))
      (fun heq => hne (crcByte_inj h1 h2 hb heq))

theorem crc32_lt (data : Bytes) (hd : ∀ b ∈ data, b < 256) :
    crc32 data < 2 ^ 32 :=
  Nat.xor_lt_two_pow (foldl_crcByte_lt data (by norm_num) hd) (by norm_num)

/-- Flipping any single bit of any byte of the message changes its
CRC-32. -/
theorem crc32_flip (u v : Bytes) (b k : Nat) (hu : ∀ x ∈ u, x < 256)
    (hv : ∀ x ∈ v, x < 256) (hb : b < 256) (hk : k < 8) :
    crc32 (u ++ (b ^^^ (1 <<< k)) :: v) ≠ crc32 (u ++ b :: v) := by
  have hkb : (1 <<< k) < 256 := by interval_cases k <;> decide
  have hflip : b ^^^ (1 <<< k) < 256 :=
    Nat.xor_lt_two_pow (n := 8) hb hkb
  unfold crc32
  intro h
  have h2 : (u ++ (b ^^^ (1 <<< k)) :: v).foldl crcByte 0xFFFFFFFF =
      (u ++ b :: v).foldl crcByte 0xFFFFFFFF := xor_right_cancel h
  rw [List.foldl_append, List.foldl_append] at h2
  simp only [List.foldl_cons] at h2
  have hslt : u.foldl crcByte 0xFFFFFFFF < 2 ^ 32 :=
    foldl_crcByte_lt u (by norm_num) hu
  have hbne : b ^^^ (1 <<< k) ≠ b := by
    intro he
    have h0 : b ^^^ (1 <<< k) = b ^^^ 0 := by rwa [Nat.xor_zero]
    have : (1 <<< k) = 0 := xor_left_cancel h0
    simp [Nat.one_shiftLeft] at this
  have hcne : crcByte (u.foldl crcByte 0xFFFFFFFF) (b ^^^ (1 <<< k)) ≠
      crcByte (u.foldl crcByte 0xFFFFFFFF) b := by
    intro he
    apply hbne
    unfold crcByte at he
    have hx1 := Nat.xor_lt_two_pow hslt
      (lt_of_lt_of_le hflip (by norm_num : (256 : Nat) ≤ 2 ^ 32))
    have hx2 := Nat.xor_lt_two_pow hslt
      (lt_of_lt_of_le hb (by norm_num : (256 : Nat) ≤ 2 ^ 32))
    exact xor_left_cancel (crcSteps_inj 8 hx1 hx2 he)
  exact foldl_crcByte_ne v (crcByte_lt hslt hflip) (crcByte_lt hslt hb)
    hv hcne h2

/-!  ## Record data (`PlantData`, scripts/generate-genesis-plants.py)  -/

/-- The per-record dataclass of scripts/generate-genesis-plants.py. -/
structure PlantData where
  plant_id : Nat
  scientific_name : String
  common_names : List String
  genus : String
  family : String
  ncbi_code : String
  properties : List String
  conservation_status : String
  rarity_tier : Nat
deriving DecidableEq, Repr

/-- The canonical string hashed by `PlantData.generate_seed` (line 60):
`f"{scientific_name}:{ncbi_code}:ANDE:Genesis:2024:Block0"`.  Note: the
record id does not occur in it. -/
def PlantData.seedInput (p : PlantData) : String :=
  p.scientific_name ++ ":" ++ p.ncbi_code ++ ":ANDE:Genesis:2024:Block0"

/-- `generate_seed` (lines 58-61): `keccak(text=data)`. -/
def PlantData.generate_seed (f : Bytes → Bytes) (p : PlantData) : Bytes :=
  f (strBytes p.seedInput)

/-- `generate_traits` (lines 63-74): 8 traits, each the first byte of
`keccak(seed + bytes([i]))` (`int.from_bytes` of an empty slice is 0). -/
def PlantData.generate_traits (f : Bytes → Bytes) (p : PlantData) : Bytes :=
  (List.range 8).map (fun i => (f (p.generate_seed f ++ [i])).headD 0)

/-- `pack_slot1` (lines 76-78): the seed verbatim. -/
def PlantData.pack_slot1 (f : Bytes → Bytes) (p : PlantData) : Bytes :=
  p.generate_seed f

/-- `pack_slot2` (lines 80-83): UTF-8 name, truncated to 32 bytes,
zero-padded to exactly 32. -/
def PlantData.pack_slot2 (p : PlantData) : Bytes :=
  ljust ((strBytes p.scientific_name).take 32) 32 0

/-- The fixed property-tag → bit-index table of `_encode_properties`. -/
def property_map : List (String × Nat) :=
  [("psychoactive", 0), ("medicinal", 1), ("toxic", 2), ("entheogenic", 3),
   ("stimulant", 4), ("sedative", 5), ("hallucinogenic", 6),
   ("dissociative", 7), ("empathogenic", 8), ("analgesic", 9),
   ("anti-inflammatory", 10), ("antibacterial", 11), ("antifungal", 12),
   ("antiviral", 13), ("antioxidant", 14), ("neuroprotective", 15),
   ("traditional", 16), ("visionary", 17), ("ceremonial", 18), ("sacred", 19)]

/-- Python `str.lower`, modelled character-wise (`Char.toLower` lowers
exactly the ASCII letters, which covers the all-ASCII property
vocabulary). -/
def strLower (s : String) : String := String.mk (s.data.map Char.toLower)

/-- `_encode_properties` (lines 155-186): OR of `1 << bit_index` over the
record's tags, matched case-insensitively; unknown tags are dropped. -/
def PlantData.encode_properties (p : PlantData) : Nat :=
  p.properties.foldl (fun bf prop =>
    match property_map.find? (fun kv => kv.1 == strLower prop) with
    | some kv => bf ||| (1 <<< kv.2)
    | none => bf) 0

/-- The fixed IUCN status → byte table of `_encode_conservation`. -/
def status_map : List (String × Nat) :=
  [("EX", 0), ("EW", 1), ("CR", 2), ("EN", 3), ("VU", 4), ("NT", 5),
   ("LC", 6), ("DD", 7), ("NE", 8)]

/-- `_encode_conservation` (lines 188-201): table lookup, default 8. -/
def PlantData.encode_conservation (p : PlantData) : Nat :=
  match status_map.find? (fun kv => kv.1 == p.conservation_status) with
  | some kv => kv.2
  | none => 8

/-- The fixed genus → SVG-template table of `_get_template_id`. -/
def template_map : List (String × Nat) :=
  [("Lophophora", 0), ("Trichocereus", 0), ("Echinopsis", 0), ("Carnegia", 0),
   ("Ariocarpus", 0), ("Epithelantha", 0),
   ("Cannabis", 1), ("Banisteriopsis", 1), ("Erythroxylum", 1),
   ("Mitragyna", 1),
   ("Psilocybe", 2), ("Amanita", 2), ("Panaeolus", 2), ("Conocybe", 2),
   ("Brugmansia", 3), ("Datura", 3), ("Solandra", 3), ("Brunfelsia", 3),
   ("Ipomoea", 4), ("Argyreia", 4), ("Turbina", 4),
   ("Phalaris", 5),
   ("Salvia", 6), ("Heimia", 6),
   ("Nymphaea", 7),
   ("Mesembryanthemum", 8)]

/-- `_get_template_id` (lines 203-250): table lookup on genus, default 9
(generic template). -/
def PlantData.get_template_id (p : PlantData) : Nat :=
  match template_map.find? (fun kv => kv.1 == p.genus) with
  | some kv => kv.2
  | none => 9

/-- `pack_slot3` (lines 85-130).  The 32-byte buffer is, in order: 8 bytes
of UTF-8 NCBI code (truncated/zero-padded), the first 4 bytes of
`keccak(",".join(common_names))`, the 8 trait bytes, the 4-byte big-endian
property bitfield, the rarity-tier byte, the conservation byte, 2 reserved
zero bytes, and the big-endian CRC-32 of the preceding 28 bytes.  Python
raises `ValueError` (modelled by `none`) when a single-byte store is out of
byte range; the only stores that can be are the trait bytes and the rarity
tier.  The flat concatenation models the `bytearray(32)` slice layout for a
hash primitive that returns 32-byte strings, as keccak does. -/
def PlantData.pack_slot3 (f : Bytes → Bytes) (p : PlantData) :
    Option Bytes :=
  let traits := p.generate_traits f
  if traits.all (fun t => t < 256) ∧ p.rarity_tier < 256 then
    match toBytesBE p.encode_properties 4 with
    | none => none
    | some propBytes =>
      let front := ljust ((strBytes p.ncbi_code).take 8) 8 0 ++
        (f (strBytes (String.intercalate "," p.common_names))).take 4 ++
        traits ++ propBytes ++
        [p.rarity_tier, p.encode_conservation, 0, 0]
      match toBytesBE (crc32 front &&& 0xFFFFFFFF) 4 with
      | none => none
      | some csBytes => some (front ++ csBytes)
  else none

/-- The first 28 bytes of slot 3 (`packed[:28]`), over which the checksum
is computed. -/
def slot3Front (f : Bytes → Bytes) (p : PlantData) : Bytes :=
  ljust ((strBytes p.ncbi_code).take 8) 8 0 ++
    (f (strBytes (String.intercalate "," p.common_names))).take 4 ++
    p.generate_traits f ++
    beBytes 4 p.encode_properties ++
    [p.rarity_tier, p.encode_conservation, 0, 0]

/-- Lowercase hex digit, as in Python json `\uXXXX` escapes. -/
def hexDigit (n : Nat) : Char :=
  if n < 10 then Char.ofNat (48 + n) else Char.ofNat (87 + n)

/-- Four lowercase hex digits. -/
def hex4 (n : Nat) : String :=
  String.mk [hexDigit (n / 4096 % 16), hexDigit (n / 256 % 16),
    hexDigit (n / 16 % 16), hexDigit (n % 16)]

/-- Escape of one character under Python `json.dumps` defaults
(`ensure_ascii=True`): quote, backslash and the named control characters
get two-character escapes, any other character outside `0x20..0x7E` becomes
`\uXXXX` (a surrogate pair beyond the BMP), everything else is literal. -/
def jsonEscapeChar (c : Char) : String :=
  if c = Char.ofNat 34 then String.mk [Char.ofNat 92, Char.ofNat 34]
  else if c = Char.ofNat 92 then String.mk [Char.ofNat 92, Char.ofNat 92]
  else if c = Char.ofNat 10 then String.mk [Char.ofNat 92, Char.ofNat 110]
  else if c = Char.ofNat 13 then String.mk [Char.ofNat 92, Char.ofNat 114]
  else if c = Char.ofNat 9 then String.mk [Char.ofNat 92, Char.ofNat 116]
  else if c = Char.ofNat 8 then String.mk [Char.ofNat 92, Char.ofNat 98]
  else if c = Char.ofNat 12 then String.mk [Char.ofNat 92, Char.ofNat 102]
  else if c.toNat < 0x20 ∨ 0x7E < c.toNat then
    if c.toNat < 0x10000 then String.mk [Char.ofNat 92, Char.ofNat 117] ++
      hex4 c.toNat
    else
      String.mk [Char.ofNat 92, Char.ofNat 117] ++
        hex4 (0xD800 + (c.toNat - 0x10000) / 0x400) ++
        String.mk [Char.ofNat 92, Char.ofNat 117] ++
        hex4 (0xDC00 + (c.toNat - 0x10000) % 0x400)
  else String.singleton c

/-- A JSON string literal (Python `json.dumps` of a `str`). -/
def jsonStr (s : String) : String :=
  "\"" ++ String.join (s.data.map jsonEscapeChar) ++ "\""

/-- A JSON array of strings with the default `", "` separator. -/
def jsonStrList (xs : List String) : String :=
  "[" ++ String.intercalate ", " (xs.map jsonStr) ++ "]"

/-- The canonical metadata JSON of `pack_slot4` (lines 138-146):
`json.dumps(metadata, sort_keys=True)` over the five-field object; the keys
in sorted order are commonNames, family, genus, properties,
scientificName. -/
def PlantData.metadata_json (p : PlantData) : String :=
  "\x7b\"commonNames\": " ++ jsonStrList p.common_names ++
    ", \"family\": " ++ jsonStr p.family ++
    ", \"genus\": " ++ jsonStr p.genus ++
    ", \"properties\": " ++ jsonStrList p.properties ++
    ", \"scientificName\": " ++ jsonStr p.scientific_name ++ "\x7d"

/-- `pack_slot4` (lines 132-153): `bytearray(keccak(text=metadata_json))`
with byte 0 overwritten by the template id (an empty hash output would make
`packed[0] = ...` raise `IndexError`, modelled by `none`). -/
def PlantData.pack_slot4 (f : Bytes → Bytes) (p : PlantData) :
    Option Bytes :=
  match f (strBytes p.metadata_json) with
  | [] => none
  | _ :: rest => some (p.get_template_id :: rest)

/-- The four storage keys of one record:
`base = 0x10 + (id - 1) * 4`, offsets 0..3 (`to_storage_slots`,
lines 252-262). -/
def slotBlock (id : Nat) : List Nat :=
  [0x10 + (id - 1) * 4, 0x10 + (id - 1) * 4 + 1,
   0x10 + (id - 1) * 4 + 2, 0x10 + (id - 1) * 4 + 3]

/-- `to_storage_slots` (lines 252-262): the four slots of one record keyed
at `base .. base+3` (Python renders keys with `hex(...)`, an injective
presentation dropped here). -/
def PlantData.to_storage_slots (f : Bytes → Bytes) (p : PlantData) :
    Option (List (Nat × Bytes)) := do
  let base := 0x10 + (p.plant_id - 1) * 4
  let s3 ← p.pack_slot3 f
  let s4 ← p.pack_slot4 f
  pure [(base, p.pack_slot1 f), (base + 1, p.pack_slot2),
        (base + 2, s3), (base + 3, s4)]

/-- `generate_genesis_storage` (lines 426-464): six header slots 0x0-0x5
followed by the four slots of each record, in insertion order (the Python
dict is modelled as the association list of its insertions; slot 0x0 holds
the bytes of the ASCII easter egg `Sonk'o wachary`, written numerically
because of the apostrophe). -/
def generate_genesis_storage (f : Bytes → Bytes) (genesis_time : Nat)
    (plants : List PlantData) : Option (List (Nat × Bytes)) := do
  let count ← toBytesBE plants.length 32
  let merkle_root :=
    calculate_merkle_root f (plants.map (fun p => p.generate_seed f))
  let tstamp ← toBytesBE genesis_time 32
  let version ← toBytesBE ((1 <<< 8) ||| 0) 32
  let header : List (Nat × Bytes) :=
    [(0x0, ljust (strBytes "Sonk" ++ [39] ++ strBytes "o wachary") 32 0),
     (0x1, ljust (strBytes "NCBI.nlm.nih.gov") 32 0),
     (0x2, count), (0x3, merkle_root), (0x4, tstamp), (0x5, version)]
  let plantSlots ← plants.mapM (fun p => p.to_storage_slots f)
  pure (header ++ plantSlots.flatten)

/-!  ## Seed derivation in scripts/generate-genesis-seeds.py  -/

/-- The record shape consumed by scripts/generate-genesis-seeds.py. -/
structure SeedPlant where
  scientific_name : String
  common_names : List String
  genus : String
  family : String
deriving DecidableEq, Repr

/-- The canonical string hashed by `generate_seed` of
scripts/generate-genesis-seeds.py (lines 119-136):
`f"{scientific_name}:{genus}:ANDE:Genesis:2025:Block0:{plant_id}"` — this
one does include the record's own id.  `Nat.repr` is the decimal rendering
Python `str` applies to a nonnegative int. -/
def seedsInput (plant : SeedPlant) (plant_id : Nat) : String :=
  plant.scientific_name ++ ":" ++ plant.genus ++ ":ANDE:Genesis:2025:Block0:"
    ++ Nat.repr plant_id

/-- `generate_seed` of scripts/generate-genesis-seeds.py (the hex-string
rendering of the digest is dropped). -/
def seeds_generate_seed (f : Bytes → Bytes) (plant : SeedPlant)
    (plant_id : Nat) : Bytes :=
  f (strBytes (seedsInput plant plant_id))

/-!  ## Packing lemmas  -/

theorem encode_properties_lt (p : PlantData) :
    p.encode_properties < 2 ^ 20 := by
  unfold PlantData.encode_properties
  suffices h : ∀ (l : List String) (acc : Nat), acc < 2 ^ 20 →
      l.foldl (fun bf prop =>
        match property_map.find? (fun kv => kv.1 == strLower prop) with
        | some kv => bf ||| (1 <<< kv.2)
        | none => bf) acc < 2 ^ 20 by
    exact h p.properties 0 (by norm_num)
  intro l
  induction l with
  | nil => intro acc h; simpa using h
  | cons prop l ih =>
    intro acc hacc
    simp only [List.foldl_cons]
    apply ih
    cases hfind : property_map.find? (fun kv => kv.1 == strLower prop) with
    | none => simpa [hfind] using hacc
    | some kv =>
      simp only [hfind]
      have hmem := List.mem_of_find?_eq_some hfind
      have hkv : kv.2 < 20 :=
        (by decide : ∀ kv ∈ property_map, kv.2 < 20) kv hmem
      refine Nat.or_lt_two_pow hacc ?_
      rw [Nat.one_shiftLeft]
      exact Nat.pow_lt_pow_right (by omega) hkv

theorem encode_conservation_lt (p : PlantData) :
    p.encode_conservation < 256 := by
  unfold PlantData.encode_conservation
  cases hfind : status_map.find? (fun kv => kv.1 == p.conservation_status) with
  | none => decide
  | some kv =>
    have hmem := List.mem_of_find?_eq_some hfind
    exact (by decide : ∀ kv ∈ status_map, kv.2 < 256) kv hmem

theorem template_id_lt (p : PlantData) : p.get_template_id < 256 := by
  unfold PlantData.get_template_id
  cases hfind : template_map.find? (fun kv => kv.1 == p.genus) with
  | none => decide
  | some kv =>
    have hmem := List.mem_of_find?_eq_some hfind
    exact (by decide : ∀ kv ∈ template_map, kv.2 < 256) kv hmem

theorem traits_length (f : Bytes → Bytes) (p : PlantData) :
    (p.generate_traits f).length = 8 := by
  simp [PlantData.generate_traits]

theorem traits_lt (f : Bytes → Bytes) (hf : Hash32 f) (p : PlantData) :
    ∀ t ∈ p.generate_traits f, t < 256 := by
  intro t ht
  unfold PlantData.generate_traits at ht
  rw [List.mem_map] at ht
  obtain ⟨i, _, rfl⟩ := ht
  obtain ⟨hlen, hbs⟩ := hf (p.generate_seed f ++ [i])
  match he : f (p.generate_seed f ++ [i]) with
  | [] => rw [he] at hlen ; simp at hlen
  | b :: rest =>
    simp only [List.headD_cons]
    exact hbs b (by rw [he] ; simp)

theorem slot3Front_length (f : Bytes → Bytes) (hf : Hash32 f)
    (p : PlantData) : (slot3Front f p).length = 28 := by
  unfold slot3Front
  have h1 : (ljust ((strBytes p.ncbi_code).take 8) 8 0).length = 8 :=
    ljust_length _ _ _ (by simp)
  have h2 : ((f (strBytes (String.intercalate "," p.common_names))).take
      4).length = 4 := by
    rw [List.length_take, (hf _).1]
    omega
  simp [h1, h2, traits_length, beBytes_length]

theorem slot3Front_lt (f : Bytes → Bytes) (hf : Hash32 f) (p : PlantData)
    (htier : p.rarity_tier < 256) : ∀ b ∈ slot3Front f p, b < 256 := by
  intro b hb
  unfold slot3Front at hb
  simp only [List.append_assoc, List.mem_append, List.mem_cons,
    List.mem_singleton, List.not_mem_nil, or_false] at hb
  rcases hb with hb | hb | hb | hb | rfl | rfl | rfl | rfl
  · exact ljust_lt _ _ _ (fun x hx => strBytes_lt _ x
      (List.mem_of_mem_take hx)) (by omega) b hb
  · exact (hf _).2 b (List.mem_of_mem_take hb)
  · exact traits_lt f hf p b hb
  · exact beBytes_lt _ _ b hb
  · exact htier
  · exact encode_conservation_lt p
  · omega
  · omega

theorem pack_slot3_eq (f : Bytes → Bytes) (p : PlantData)
    (h1 : ∀ t ∈ p.generate_traits f, t < 256) (h2 : p.rarity_tier < 256) :
    p.pack_slot3 f = some (slot3Front f p ++
      beBytes 4 (crc32 (slot3Front f p) &&& 0xFFFFFFFF)) := by
  have g1 : (p.generate_traits f).all (fun t => t < 256) = true := by
    rw [List.all_eq_true]
    intro t ht
    simpa using h1 t ht
  have gprop : toBytesBE p.encode_properties 4 =
      some (beBytes 4 p.encode_properties) := by
    unfold toBytesBE
    rw [if_pos (lt_of_lt_of_le (encode_properties_lt p) (by norm_num))]
  have gcs : toBytesBE (crc32 (slot3Front f p) &&& 0xFFFFFFFF) 4 =
      some (beBytes 4 (crc32 (slot3Front f p) &&& 0xFFFFFFFF)) := by
    unfold toBytesBE
    rw [if_pos ?_]
    have : crc32 (slot3Front f p) &&& 0xFFFFFFFF ≤ 0xFFFFFFFF :=
      Nat.and_le_right
    omega
  unfold PlantData.pack_slot3
  simp only [g1, h2, and_self, if_true, gprop]
  simp only [show ljust ((strBytes p.ncbi_code).take 8) 8 0 ++
    (f (strBytes (String.intercalate "," p.common_names))).take 4 ++
    p.generate_traits f ++ beBytes 4 p.encode_properties ++
    [p.rarity_tier, p.encode_conservation, 0, 0] = slot3Front f p from rfl]
  rw [gcs]

theorem pack_slot4_eq (f : Bytes → Bytes) (p : PlantData) (hf : Hash32 f) :
    p.pack_slot4 f =
      some (p.get_template_id :: (f (strBytes p.metadata_json)).drop 1) ∧
    (p.get_template_id :: (f (strBytes p.metadata_json)).drop 1).length =
      32 := by
  have hlen := (hf (strBytes p.metadata_json)).1
  obtain ⟨b, rest, he⟩ :
      ∃ b rest, f (strBytes p.metadata_json) = b :: rest := by
    match hm : f (strBytes p.metadata_json) with
    | [] => rw [hm] at hlen ; simp at hlen
    | b :: rest => exact ⟨b, rest, rfl⟩
  constructor
  · unfold PlantData.pack_slot4
    rw [he]
    simp
  · rw [List.length_cons, List.length_drop, hlen]

theorem to_storage_slots_keys (f : Bytes → Bytes) (p : PlantData)
    (s : List (Nat × Bytes)) (hs : p.to_storage_slots f = some s) :
    s.map Prod.fst = slotBlock p.plant_id ∧ s.length = 4 := by
  unfold PlantData.to_storage_slots at hs
  cases h3 : p.pack_slot3 f with
  | none => rw [h3] at hs ; simp at hs
  | some s3 =>
    cases h4 : p.pack_slot4 f with
    | none => rw [h3, h4] at hs ; simp at hs
    | some s4 =>
      rw [h3, h4] at hs
      simp only [Option.bind_eq_bind, Option.some_bind, Option.pure_def,
        Option.some.injEq] at hs
      rw [← hs]
      exact ⟨by simp [slotBlock], by simp⟩

theorem mapM_slots (f : Bytes → Bytes) :
    ∀ (plants : List PlantData) (ls : List (List (Nat × Bytes))),
      plants.mapM (fun p => p.to_storage_slots f) = some ls →
      ls.map (fun s => s.map Prod.fst) =
        plants.map (fun p => slotBlock p.plant_id) ∧
      ∀ s ∈ ls, s.length = 4
  | [], ls, h => by
    simp only [List.mapM_nil, Option.pure_def, Option.some.injEq] at h
    subst h
    simp
  | p :: plants, ls, h => by
    rw [List.mapM_cons] at h
    cases h1 : p.to_storage_slots f with
    | none => rw [h1] at h ; simp at h
    | some s =>
      rw [h1] at h
      cases h2 : plants.mapM (fun p => p.to_storage_slots f) with
      | none => rw [h2] at h ; simp at h
      | some rest =>
        rw [h2] at h
        simp only [Option.bind_eq_bind, Option.some_bind, Option.pure_def,
          Option.some.injEq] at h
        subst h
        obtain ⟨hkeys, hlens⟩ := mapM_slots f plants rest h2
        obtain ⟨hk, hl⟩ := to_storage_slots_keys f p s h1
        constructor
        · simp only [List.map_cons, hkeys, hk]
        · intro x hx
          rcases List.mem_cons.mp hx with rfl | hx
          · exact hl
          · exact hlens x hx

/-!  ## Decimal rendering: `Nat.repr` characterisation and injectivity

`Nat.repr` is the decimal rendering Lean's `toString` (and Python `str`,
for a nonnegative int) applies to a natural number. -/

/-- The decimal digit characters of `n`, most significant first. -/
def decDigits (n : Nat) : List Char :=
  if n < 10 then [Nat.digitChar n]
  else decDigits (n / 10) ++ [Nat.digitChar (n % 10)]
termination_by n
decreasing_by
  exact Nat.div_lt_self (by omega) (by omega)

theorem toDigitsCore_eq :
    ∀ (fuel n : Nat) (l : List Char), n < fuel →
      Nat.toDigitsCore 10 fuel n l = decDigits n ++ l
  | 0, n, l, h => by omega
  | fuel + 1, n, l, h => by
    simp only [Nat.toDigitsCore]
    by_cases h0 : n / 10 = 0
    · have hn : n < 10 := by omega
      rw [if_pos h0, decDigits, if_pos hn]
      simp [Nat.mod_eq_of_lt hn]
    · rw [if_neg h0]
      have hlt : n / 10 < fuel := by
        have := Nat.div_lt_self (n := n) (by omega) (by omega : 1 < 10)
        omega
      rw [toDigitsCore_eq fuel (n / 10) _ hlt]
      conv_rhs => rw [decDigits]
      rw [if_neg (by omega : ¬n < 10)]
      simp [List.append_assoc]

theorem repr_eq_decDigits (n : Nat) : Nat.repr n = (decDigits n).asString := by
  unfold Nat.repr Nat.toDigits
  rw [toDigitsCore_eq (n + 1) n [] (by omega), List.append_nil]

theorem digitChar_toNat : ∀ k < 10, (Nat.digitChar k).toNat = 48 + k := by
  decide

theorem decDigits_ascii (n : Nat) : ∀ c ∈ decDigits n, c.toNat < 128 := by
  induction n using Nat.strong_induction_on with
  | _ n ih =>
    intro c hc
    by_cases hn : n < 10
    · rw [decDigits, if_pos hn] at hc
      simp only [List.mem_singleton] at hc
      subst hc
      rw [digitChar_toNat n hn]
      omega
    · rw [decDigits, if_neg hn] at hc
      simp only [List.mem_append, List.mem_singleton] at hc
      rcases hc with hc | rfl
      · exact ih (n / 10) (Nat.div_lt_self (by omega) (by omega)) c hc
      · rw [digitChar_toNat (n % 10) (by omega)]
        omega

/-- Read a decimal number back from the UTF-8 bytes of its digits. -/
def ofDigitBytes (l : List Nat) : Nat :=
  l.foldl (fun a b => a * 10 + (b - 48)) 0

theorem ofDigitBytes_decDigits (n : Nat) :
    ofDigitBytes ((decDigits n).map Char.toNat) = n := by
  induction n using Nat.strong_induction_on with
  | _ n ih =>
    by_cases hn : n < 10
    · rw [decDigits, if_pos hn]
      simp [ofDigitBytes, digitChar_toNat n hn]
    · rw [decDigits, if_neg hn]
      unfold ofDigitBytes
      rw [List.map_append, List.foldl_append]
      have := ih (n / 10) (Nat.div_lt_self (by omega) (by omega))
      unfold ofDigitBytes at this
      rw [this]
      simp [digitChar_toNat (n % 10) (by omega)]
      omega

theorem strBytes_ascii_aux : ∀ l : List Char, (∀ c ∈ l, c.toNat < 128) →
    (l.map utf8Bytes).flatten = l.map Char.toNat
  | [], _ => rfl
  | c :: l, h => by
    have hc : c.toNat < 128 := h c (by simp)
    simp only [List.map_cons, List.flatten_cons]
    rw [strBytes_ascii_aux l (fun x hx => h x (by simp [hx]))]
    simp [utf8Bytes, if_pos (by omega : c.toNat < 0x80)]

theorem strBytes_repr (n : Nat) :
    strBytes (Nat.repr n) = (decDigits n).map Char.toNat := by
  rw [repr_eq_decDigits]
  have hdata : ((decDigits n).asString).data = decDigits n := rfl
  unfold strBytes
  rw [hdata]
  exact strBytes_ascii_aux _ (decDigits_ascii n)

theorem repr_bytes_inj {m n : Nat}
    (h : strBytes (Nat.repr m) = strBytes (Nat.repr n)) : m = n := by
  rw [strBytes_repr, strBytes_repr] at h
  have h2 := congrArg ofDigitBytes h
  rwa [ofDigitBytes_decDigits, ofDigitBytes_decDigits] at h2

/-!  ## Concrete instances used by witnesses  -/

/-- A concrete stand-in for the abstract hash primitive, used only to
instantiate witnesses: it always returns 32 well-formed bytes. -/
def wHash (x : Bytes) : Bytes := List.replicate 31 0 ++ [x.length % 256]

/-- A concrete three-leaf list of 32-byte leaves used by witnesses. -/
def wLeaves : List Bytes :=
  [List.replicate 32 0, List.replicate 32 1, List.replicate 32 2]

theorem wHash32 : Hash32 wHash := by
  intro x
  constructor
  · simp [wHash]
  · intro b hb
    simp only [wHash, List.mem_append, List.mem_singleton] at hb
    rcases hb with hb | rfl
    · rw [List.eq_of_mem_replicate hb]
      omega
    · exact Nat.mod_lt _ (by omega)

/-- A concrete record (the first entry of `LEGENDARY_PLANTS`). -/
def cPlantA : PlantData := {
  plant_id := 1, scientific_name := "Lophophora williamsii",
  common_names := ["Peyote", "Hikuri", "Mescal Button"],
  genus := "Lophophora", family := "Cactaceae", ncbi_code := "NC030453",
  properties := ["psychoactive", "entheogenic", "hallucinogenic",
    "medicinal", "ceremonial"],
  conservation_status := "VU", rarity_tier := 3 }

/-- The same record with a different id only. -/
def cPlantB : PlantData := { cPlantA with plant_id := 2 }

/-- The same record with a rarity tier that does not fit in a byte. -/
def cPlantTier : PlantData := { cPlantA with rarity_tier := 256 }

/-- A concrete constant hash whose output has its leading 31 bytes
different from its trailing 31 bytes. -/
def cHash : Bytes → Bytes := fun _ => List.range 32

/-- A concrete record shape for the seeds-script deriver. -/
def cSeedPlant : SeedPlant := {
  scientific_name := "Erythroxylum coca", common_names := ["Coca"],
  genus := "Erythroxylum", family := "Erythroxylaceae" }

/-- Slot 3 of `cPlantA` under `wHash`. -/
def wSlot3 : Bytes := (cPlantA.pack_slot3 wHash).getD []

/-!  ## Claims  -/

/-- C1: for every non-empty ordered list of 32-byte leaves and every index
`i < length`, verifying the proof produced by `generate_merkle_proof`
against the root produced by `calculate_merkle_root` succeeds: replaying
the pairing logic implied by `i` and the leaf count combines the running
hash with each proof element in the left/right order given by the index
parity at each level, skips unpaired odd tails, and yields exactly
`calculate_merkle_root leaves`. -/
theorem merkle_proof_correct (f : Bytes → Bytes) (leaves : List Bytes)
    (i : Nat) (hne : leaves ≠ []) (hi : i < leaves.length)
    (h32 : ∀ l ∈ leaves, l.length = 32) :
    verify f leaves[i] i (generate_merkle_proof f leaves i)
      (calculate_merkle_root f leaves) leaves.length = true := by
  have h := verifySeq_proofLoop f leaves i leaves[i]
    (List.getElem?_eq_getElem hi)
  have hproof : generate_merkle_proof f leaves i = proofLoop f i leaves := by
    unfold generate_merkle_proof
    rw [if_neg (by omega)]
  simp [verify, hproof, h]

theorem merkle_proof_correct_witness :
    verify wHash wLeaves[1] 1 (generate_merkle_proof wHash wLeaves 1)
      (calculate_merkle_root wHash wLeaves) wLeaves.length = true :=
  merkle_proof_correct wHash wLeaves 1 (by decide) (by decide) (by decide)

/-- C2: `calculate_merkle_root` works level by level: each full pair
`(2k, 2k+1)` becomes `H(left ++ right)` in that order, a lone unpaired tail
node is promoted unchanged to the next level, and for three leaves
`[A, B, C]` the root equals `H(H(A ++ B) ++ C)`. -/
theorem merkle_level_by_level (f : Bytes → Bytes) (l : List Bytes) (k : Nat)
    (A B C : Bytes) :
    (∀ a b, l[2 * k]? = some a → l[2 * k + 1]? = some b →
      (merkleLevel f l)[k]? = some (f (a ++ b))) ∧
    (∀ a, l[2 * k]? = some a → l.length = 2 * k + 1 →
      (merkleLevel f l)[k]? = some a) ∧
    (2 ≤ l.length →
      calculate_merkle_root f l = calculate_merkle_root f (merkleLevel f l)) ∧
    calculate_merkle_root f [A, B, C] = f (f (A ++ B) ++ C) := by
  refine ⟨?_, ?_, ?_, ?_⟩
  · intro a b ha hb
    rw [merkleLevel_getElem, ha, hb]
  · intro a ha hlen
    rw [merkleLevel_getElem, ha, List.getElem?_eq_none (by omega)]
  · intro hlen
    match l with
    | [] => simp at hlen
    | [x] => simp at hlen
    | x :: y :: rest => rw [calculate_merkle_root]
  · simp [calculate_merkle_root, merkleLevel]

theorem merkle_level_by_level_witness :
    (merkleLevel wHash wLeaves)[0]? =
      some (wHash (List.replicate 32 0 ++ List.replicate 32 1)) :=
  (merkle_level_by_level wHash wLeaves 0 [] [] []).1 _ _ (by decide) (by decide)

/-- C7: for every leaf list and every out-of-range index
(`index ≥ number of leaves`), `generate_merkle_proof` returns the empty
proof list and never signals an error (it is a total function). -/
theorem merkle_proof_empty_out_of_range (f : Bytes → Bytes)
    (leaves : List Bytes) (index : Nat) (h : leaves.length ≤ index) :
    generate_merkle_proof f leaves index = [] := by
  unfold generate_merkle_proof
  rw [if_pos (by omega)]

theorem merkle_proof_empty_out_of_range_witness :
    generate_merkle_proof wHash wLeaves 5 = [] :=
  merkle_proof_empty_out_of_range wHash wLeaves 5 (by decide)

/-- C8: `calculate_merkle_root` on the empty leaf list returns the fixed
all-zero 32-byte sentinel, and on a single-leaf list returns that leaf
unchanged, with no hashing applied. -/
theorem merkle_root_degenerate (f : Bytes → Bytes) (leaf : Bytes) :
    calculate_merkle_root f [] = List.replicate 32 0 ∧
    calculate_merkle_root f [leaf] = leaf := by
  constructor
  · simp [calculate_merkle_root, zero32]
  · simp [calculate_merkle_root]

/-- C3 counterexample: the canonical string hashed by
`PlantData.generate_seed` (the deriver of
scripts/generate-genesis-plants.py) does not include the record's own id:
two records equal in every other field but with different ids have
identical canonical strings and hence identical seeds for any hash. -/
theorem seed_id_counterexample :
    cPlantA.plant_id ≠ cPlantB.plant_id ∧
    cPlantA.scientific_name = cPlantB.scientific_name ∧
    cPlantA.common_names = cPlantB.common_names ∧
    cPlantA.genus = cPlantB.genus ∧
    cPlantA.family = cPlantB.family ∧
    cPlantA.ncbi_code = cPlantB.ncbi_code ∧
    cPlantA.properties = cPlantB.properties ∧
    cPlantA.conservation_status = cPlantB.conservation_status ∧
    cPlantA.rarity_tier = cPlantB.rarity_tier ∧
    cPlantA.seedInput = cPlantB.seedInput ∧
    cPlantA.generate_seed wHash = cPlantB.generate_seed wHash :=
  ⟨by decide, rfl, rfl, rfl, rfl, rfl, rfl, rfl, rfl, rfl, rfl⟩

/-- C3 amended: the deriver of scripts/generate-genesis-seeds.py does
include the record's own id in its canonical string, so two records equal
in all fields except id produce different canonical strings — hence
different hashed byte strings and, for an injective hash, different
seeds; the deriver of scripts/generate-genesis-plants.py omits the id, so
for it two records equal in all fields except id produce identical
seeds. -/
theorem seed_id_separation (p : SeedPlant) (i j : Nat) (hij : i ≠ j)
    (q r : PlantData) (hname : q.scientific_name = r.scientific_name)
    (hncbi : q.ncbi_code = r.ncbi_code) (f : Bytes → Bytes)
    (hinj : Function.Injective f) :
    seedsInput p i ≠ seedsInput p j ∧
    seeds_generate_seed f p i ≠ seeds_generate_seed f p j ∧
    q.generate_seed f = r.generate_seed f := by
  have e1 : strBytes (seedsInput p i) =
      strBytes (p.scientific_name ++ ":" ++ p.genus ++
        ":ANDE:Genesis:2025:Block0:") ++ strBytes (Nat.repr i) :=
    strBytes_append _ _
  have e2 : strBytes (seedsInput p j) =
      strBytes (p.scientific_name ++ ":" ++ p.genus ++
        ":ANDE:Genesis:2025:Block0:") ++ strBytes (Nat.repr j) :=
    strBytes_append _ _
  have hbytes : strBytes (seedsInput p i) ≠ strBytes (seedsInput p j) := by
    intro h
    rw [e1, e2] at h
    exact hij (repr_bytes_inj (List.append_cancel_left h))
  refine ⟨fun h => hbytes (congrArg strBytes h), fun h => hbytes (hinj h), ?_⟩
  unfold PlantData.generate_seed PlantData.seedInput
  rw [hname, hncbi]

theorem seed_id_separation_witness :
    seedsInput cSeedPlant 1 ≠ seedsInput cSeedPlant 2 ∧
    seeds_generate_seed id cSeedPlant 1 ≠ seeds_generate_seed id cSeedPlant 2 ∧
    cPlantA.generate_seed id = cPlantB.generate_seed id :=
  seed_id_separation cSeedPlant 1 2 (by decide) cPlantA cPlantB rfl rfl id
    (fun _ _ h => h)

/-- C4: bytes 28-31 of the packed data slot equal the big-endian CRC-32 of
bytes 0-27 of that slot, and flipping any single bit of any byte among
bytes 0-27 changes the recomputed checksum. -/
theorem pack_checksum (f : Bytes → Bytes) (p : PlantData) (s : Bytes)
    (hf : Hash32 f) (hs : p.pack_slot3 f = some s) :
    s.drop 28 = beBytes 4 (crc32 (s.take 28)) ∧
    (∀ u b v, s.take 28 = u ++ b :: v → ∀ k, k < 8 →
      crc32 (u ++ (b ^^^ (1 <<< k)) :: v) ≠ crc32 (u ++ b :: v)) := by
  by_cases h2 : p.rarity_tier < 256
  · have h1 := traits_lt f hf p
    rw [pack_slot3_eq f p h1 h2] at hs
    have hs2 := Option.some.inj hs
    have hlenF := slot3Front_length f hf p
    have hltF := slot3Front_lt f hf p h2
    have hmask : crc32 (slot3Front f p) &&& 0xFFFFFFFF =
        crc32 (slot3Front f p) := by
      rw [show (0xFFFFFFFF : Nat) = 2 ^ 32 - 1 by norm_num]
      exact Nat.and_pow_two_sub_one_of_lt_two_pow (crc32_lt _ hltF)
    have htake : s.take 28 = slot3Front f p := by
      have := List.take_left (slot3Front f p)
        (beBytes 4 (crc32 (slot3Front f p) &&& 0xFFFFFFFF))
      rw [hlenF] at this
      rw [hs2] at this
      exact this
    have hdrop : s.drop 28 = beBytes 4 (crc32 (slot3Front f p)) := by
      have := List.drop_left (slot3Front f p)
        (beBytes 4 (crc32 (slot3Front f p) &&& 0xFFFFFFFF))
      rw [hlenF] at this
      rw [hs2] at this
      rw [this, hmask]
    constructor
    · rw [hdrop, htake]
    · intro u b v huv k hk
      rw [htake] at huv
      have hmem : ∀ x ∈ u ++ b :: v, x < 256 := by
        rw [← huv]
        exact hltF
      exact crc32_flip u v b k
        (fun x hx => hmem x (by simp [hx]))
        (fun x hx => hmem x (by simp [hx]))
        (hmem b (by simp)) hk
  · exfalso
    unfold PlantData.pack_slot3 at hs
    rw [if_neg (by intro hc ; exact h2 hc.2)] at hs
    exact Option.noConfusion hs

theorem pack_checksum_witness :
    wSlot3.drop 28 = beBytes 4 (crc32 (wSlot3.take 28)) :=
  (pack_checksum wHash cPlantA wSlot3 wHash32 (by decide)).1

/-- C9: the property bitfield is strictly below `2 ^ 20`, so its 4-byte
big-endian rendering never overflows, and bytes 20-23 of any successfully
packed data slot are exactly that rendering. -/
theorem properties_bitfield (f : Bytes → Bytes) (p : PlantData) (s : Bytes)
    (hf : Hash32 f) (hs : p.pack_slot3 f = some s) :
    p.encode_properties < 2 ^ 20 ∧
    toBytesBE p.encode_properties 4 = some (beBytes 4 p.encode_properties) ∧
    (s.drop 20).take 4 = beBytes 4 p.encode_properties := by
  refine ⟨encode_properties_lt p, ?_, ?_⟩
  · unfold toBytesBE
    rw [if_pos (lt_of_lt_of_le (encode_properties_lt p) (by norm_num))]
  · by_cases h2 : p.rarity_tier < 256
    · have h1 := traits_lt f hf p
      rw [pack_slot3_eq f p h1 h2] at hs
      have hs2 := Option.some.inj hs
      have e : s = (ljust ((strBytes p.ncbi_code).take 8) 8 0 ++
          (f (strBytes (String.intercalate "," p.common_names))).take 4 ++
          p.generate_traits f) ++
          (beBytes 4 p.encode_properties ++
          ([p.rarity_tier, p.encode_conservation, 0, 0] ++
          beBytes 4 (crc32 (slot3Front f p) &&& 0xFFFFFFFF))) := by
        rw [← hs2]
        unfold slot3Front
        simp [List.append_assoc]
      have hpre : (ljust ((strBytes p.ncbi_code).take 8) 8 0 ++
          (f (strBytes (String.intercalate "," p.common_names))).take 4 ++
          p.generate_traits f).length = 20 := by
        have hc : ((f (strBytes (String.intercalate ","
            p.common_names))).take 4).length = 4 := by
          rw [List.length_take, (hf _).1]
          omega
        simp [ljust_length _ _ _ (by simp : ((strBytes
          p.ncbi_code).take 8).length ≤ 8), hc, traits_length]
      rw [e, List.drop_left' hpre, List.take_left' (beBytes_length 4 _)]
    · exfalso
      unfold PlantData.pack_slot3 at hs
      rw [if_neg (by intro hc ; exact h2 hc.2)] at hs
      exact Option.noConfusion hs

theorem properties_bitfield_witness :
    (wSlot3.drop 20).take 4 = beBytes 4 cPlantA.encode_properties :=
  (properties_bitfield wHash cPlantA wSlot3 wHash32 (by decide)).2.2

/-- C5 counterexample: the metadata slot keeps the hash's bytes 1-31, not
its most-significant 31 bytes (bytes 0-30): under a hash returning
`[0, 1, ..., 31]`, bytes 1-31 of the packed slot are `[1, ..., 31]` while
the most-significant 31 bytes of the hash are `[0, ..., 30]`. -/
theorem slot4_counterexample :
    cPlantA.pack_slot4 cHash = some (0 :: (List.range 32).drop 1) ∧
    (0 :: (List.range 32).drop 1).drop 1 ≠
      (cHash (strBytes cPlantA.metadata_json)).take 31 := by
  constructor
  · decide
  · decide

/-- C5 amended: byte 0 of the metadata slot is the template id looked up
from the record's genus (default 9 if unmapped), and bytes 1-31 are bytes
1-31 (all but the most-significant byte) of `H` applied to the metadata
object serialized as JSON with sorted keys. -/
theorem slot4_spec (f : Bytes → Bytes) (p : PlantData) (hf : Hash32 f) :
    p.pack_slot4 f =
      some (p.get_template_id :: (f (strBytes p.metadata_json)).drop 1) ∧
    (p.get_template_id :: (f (strBytes p.metadata_json)).drop 1).length =
      32 ∧
    (template_map.find? (fun kv => kv.1 == p.genus) = none →
      p.get_template_id = 9) := by
  obtain ⟨h1, h2⟩ := pack_slot4_eq f p hf
  refine ⟨h1, h2, ?_⟩
  intro hnone
  unfold PlantData.get_template_id
  rw [hnone]

theorem slot4_spec_witness :
    cPlantA.pack_slot4 wHash = some (cPlantA.get_template_id ::
      (wHash (strBytes cPlantA.metadata_json)).drop 1) :=
  (slot4_spec wHash cPlantA wHash32).1

/-- C6 counterexample: packing can fail: a record whose rarity tier does
not fit in a byte makes the Python byte store `packed[24] = rarity_tier`
raise `ValueError`, so producing the data slot fails rather than being a
total operation. -/
theorem pack_fail_counterexample :
    cPlantTier.rarity_tier = 256 ∧ cPlantTier.pack_slot3 wHash = none := by
  constructor
  · rfl
  · decide

/-- C6 amended: for every record whose rarity tier fits in a byte
(`rarity_tier < 256`), producing the four slots is total and each slot is
exactly 32 bytes; oversize strings are silently truncated and unknown
lookups resolve to defaults. -/
theorem pack_total (f : Bytes → Bytes) (p : PlantData) (hf : Hash32 f)
    (ht : p.rarity_tier < 256) :
    (p.pack_slot1 f).length = 32 ∧
    p.pack_slot2.length = 32 ∧
    (∃ s, p.pack_slot3 f = some s ∧ s.length = 32) ∧
    (∃ s, p.pack_slot4 f = some s ∧ s.length = 32) := by
  refine ⟨(hf _).1, ?_, ?_, ?_⟩
  · unfold PlantData.pack_slot2
    exact ljust_length _ _ _ (by simp)
  · refine ⟨_, pack_slot3_eq f p (traits_lt f hf p) ht, ?_⟩
    rw [List.length_append, slot3Front_length f hf p, beBytes_length]
  · obtain ⟨h1, h2⟩ := pack_slot4_eq f p hf
    exact ⟨_, h1, h2⟩

theorem pack_total_witness :
    (cPlantA.pack_slot1 wHash).length = 32 ∧
    cPlantA.pack_slot2.length = 32 ∧
    (∃ s, cPlantA.pack_slot3 wHash = some s ∧ s.length = 32) ∧
    (∃ s, cPlantA.pack_slot4 wHash = some s ∧ s.length = 32) :=
  pack_total wHash cPlantA wHash32 (by decide)

/-- C10: for records with pairwise-distinct ids all at least 1, the storage
mapping produced by `generate_genesis_storage` consists of exactly
`6 + 4 * n` entries — the six header slots 0x0-0x5 followed by, for each
record, the four slots `0x10 + (id - 1) * 4 + k`, `k < 4` — and its keys
are pairwise distinct, so no slot is ever written twice. -/
theorem storage_layout (f : Bytes → Bytes) (t : Nat)
    (plants : List PlantData) (storage : List (Nat × Bytes))
    (hid : ∀ p ∈ plants, 1 ≤ p.plant_id)
    (hnodup : (plants.map (fun p => p.plant_id)).Nodup)
    (hs : generate_genesis_storage f t plants = some storage) :
    storage.map Prod.fst =
      [0, 1, 2, 3, 4, 5] ++
        (plants.map (fun p => slotBlock p.plant_id)).flatten ∧
    (storage.map Prod.fst).Nodup ∧
    storage.length = 6 + 4 * plants.length := by
  unfold generate_genesis_storage at hs
  cases hc : toBytesBE plants.length 32 with
  | none => rw [hc] at hs ; simp at hs
  | some count =>
  rw [hc] at hs
  cases hts : toBytesBE t 32 with
  | none => rw [hts] at hs ; simp at hs
  | some ts =>
  rw [hts] at hs
  cases hv : toBytesBE ((1 <<< 8) ||| 0) 32 with
  | none => rw [hv] at hs ; simp at hs
  | some ver =>
  rw [hv] at hs
  cases hps : plants.mapM (fun p => p.to_storage_slots f) with
  | none => rw [hps] at hs ; simp at hs
  | some plantSlots =>
  rw [hps] at hs
  simp only [Option.bind_eq_bind, Option.some_bind, Option.pure_def,
    Option.some.injEq] at hs
  obtain ⟨hkeys, hlens⟩ := mapM_slots f plants plantSlots hps
  subst hs
  have hm : ∀ vs : List (Nat × Bytes),
      ([(0, ljust (strBytes "Sonk" ++ [39] ++ strBytes "o wachary") 32 0),
        (1, ljust (strBytes "NCBI.nlm.nih.gov") 32 0),
        (2, count), (3, calculate_merkle_root f
          (plants.map (PlantData.generate_seed f))),
        (4, ts), (5, ver)] ++ vs).map Prod.fst =
      [0, 1, 2, 3, 4, 5] ++ vs.map Prod.fst := by
    intro vs
    simp
  have hm2 : (plantSlots.flatten).map Prod.fst =
      (plants.map (fun p => slotBlock p.plant_id)).flatten := by
    rw [List.map_flatten, ← hkeys]
  have hkeyseq := hm plantSlots.flatten
  rw [hm2] at hkeyseq
  refine ⟨hkeyseq, ?_, ?_⟩
  · rw [hkeyseq, List.nodup_append]
    refine ⟨by decide, ?_, ?_⟩
    · rw [List.nodup_flatten]
      constructor
      · intro l hl
        rw [List.mem_map] at hl
        obtain ⟨p, hp, rfl⟩ := hl
        have h1 := hid p hp
        simp only [slotBlock, List.nodup_cons, List.mem_cons,
          List.mem_singleton, List.not_mem_nil, or_false, not_or,
          List.nodup_nil, not_false_eq_true, and_true]
        omega
      · rw [List.pairwise_map]
        have hpw : plants.Pairwise
            (fun p q => p.plant_id ≠ q.plant_id) := by
          unfold List.Nodup at hnodup
          rw [List.pairwise_map] at hnodup
          exact hnodup
        refine hpw.imp_of_mem ?_
        intro p q hp hq hne x hx hx2
        have h1 := hid p hp
        have h2 := hid q hq
        simp only [slotBlock, List.mem_cons, List.mem_singleton,
          List.not_mem_nil, or_false] at hx hx2
        omega
    · intro x hx hx2
      rw [List.mem_flatten] at hx2
      obtain ⟨l, hl, hxl⟩ := hx2
      rw [List.mem_map] at hl
      obtain ⟨p, hp, rfl⟩ := hl
      have h1 := hid p hp
      simp only [slotBlock, List.mem_cons, List.mem_singleton,
        List.not_mem_nil, or_false] at hxl
      simp only [List.mem_cons, List.mem_singleton, List.not_mem_nil,
        or_false] at hx
      omega
  · have hcount : plantSlots.length = plants.length := by
      have := congrArg List.length hkeys
      simpa using this
    have hsum : (plantSlots.map List.length).sum = 4 * plants.length := by
      have he : plantSlots.map List.length =
          List.replicate plantSlots.length 4 := by
        rw [List.eq_replicate_iff]
        refine ⟨by simp, ?_⟩
        intro x hx
        rw [List.mem_map] at hx
        obtain ⟨s, hsmem, rfl⟩ := hx
        exact hlens s hsmem
      rw [he, List.sum_replicate, smul_eq_mul, hcount]
      omega
    simp only [List.length_append, List.length_flatten, hsum]
    simp

theorem storage_layout_witness :
    ((generate_genesis_storage wHash 0 [cPlantA, cPlantB]).getD []).length =
      6 + 4 * ([cPlantA, cPlantB] : List PlantData).length :=
  (storage_layout wHash 0 [cPlantA, cPlantB]
    ((generate_genesis_storage wHash 0 [cPlantA, cPlantB]).getD [])
    (by decide) (by decide) rfl).2.2

end AndeChain
